import Mathlib

set_option maxHeartbeats 1000000

/-
  Verification development for the multispeaker_synthesis repository.

  Shallow embedding of:
    - speaker_encoder/data_objects/random_cycler.py   (RandomCycler)
    - synthesizer/audio_utils.py                      (_normalize / _denormalize)
    - synthesizer/models/tacotron.py                  (LSA attention, Decoder mel
                                                       projection, Tacotron.generate loop)
    - synthesizer/synthesizer_dataset.py              (collate_synthesizer padding)

  Randomness (random.sample shuffles) is modelled as an explicit stream of
  permutations consumed on demand; learned network layers whose numeric output
  is irrelevant to a claim are modelled as uninterpreted per-step inputs.
-/

/- ===================== Definitions ===================== -/

/- ---- RandomCycler (speaker_encoder/data_objects/random_cycler.py) ---- -/

section RandomCyclerDefs

variable {α : Type} [DecidableEq α]

/-- Embeds RandomCycler.__init__ (random_cycler.py lines 15-19): raises on an
empty source collection, otherwise stores the pool and an empty pending buffer. -/
def RandomCycler.init (source : List α) : Except String (List α × List α) :=
  if source.length = 0 then
    Except.error "RandomCycler was provided an empty collection."
  else
    Except.ok (source, [])

/-- Embeds the while-loop of RandomCycler.sample (random_cycler.py lines 21-36).
One recursive call is one loop iteration.  `pool` is self.all_items, `next` is
self.next_items, `perms idx` is the result of the idx-th call to the shuffle
lambda `random.sample(l, len(l))` (an arbitrary permutation of the pool).
Returns the drawn items, the final pending buffer and the next shuffle index.
Fuel bounds the iteration count; `none` means fuel ran out (never happens for
the fuel chosen in RandomCycler.sample below). -/
def sampleAux (pool : List α) (perms : ℕ → List α) :
    ℕ → ℕ → List α → ℕ → Option (List α × List α × ℕ)
  | 0, _, _, _ => none
  | fuel + 1, count, next, idx =>
    if count = 0 then some ([], next, idx)
    else if pool.length ≤ count then
      Option.map (fun r => (perms idx ++ r.1, r.2))
        (sampleAux pool perms fuel (count - pool.length) next (idx + 1))
    else if next.drop (min count next.length) = [] then
      Option.map (fun r => (next.take (min count next.length) ++ r.1, r.2))
        (sampleAux pool perms fuel (count - min count next.length) (perms idx) (idx + 1))
    else
      Option.map (fun r => (next.take (min count next.length) ++ r.1, r.2))
        (sampleAux pool perms fuel (count - min count next.length)
          (next.drop (min count next.length)) idx)

/-- RandomCycler.sample: run the loop with enough fuel (each iteration either
draws at least one item or refills the empty pending buffer, so 2*count+2
iterations always suffice). -/
def RandomCycler.sample (pool : List α) (perms : ℕ → List α)
    (count : ℕ) (next : List α) (idx : ℕ) : Option (List α × List α × ℕ) :=
  sampleAux pool perms (2 * count + 2) count next idx

/-- A sequence of consecutive RandomCycler.sample calls starting from the state
(next, idx); returns the concatenation of all drawn items. -/
def runCalls (pool : List α) (perms : ℕ → List α) :
    List ℕ → List α → ℕ → Option (List α)
  | [], _, _ => some []
  | c :: cs, next, idx =>
    (RandomCycler.sample pool perms c next idx).bind (fun r =>
      (runCalls pool perms cs r.2.1 r.2.2).map (fun rest => r.1 ++ rest))

/-- Abstraction invariant tying the emitted output to the sampler state: the
output consists of q full traversals of the pool plus the consumed prefix of
the current pending permutation, and the pending buffer is the rest of that
permutation (or the pristine initial empty buffer). -/
def CyclerInv (pool out next : List α) : Prop :=
  ∃ q : ℕ, ∃ consumed : List α,
    (((consumed ++ next).Perm pool ∧ next ≠ []) ∨ (next = [] ∧ consumed = [])) ∧
    out.length = q * pool.length + consumed.length ∧
    ∀ x ∈ pool, out.count x = q + consumed.count x

end RandomCyclerDefs

/-- Shuffle-stream resolution used to exhibit the gap violation of the
RandomCycler docstring guarantee (each entry is a permutation of [0, 1]). -/
def c4Perms : ℕ → List ℕ := fun i => if i ≤ 1 then [0, 1] else [1, 0]

/- ---- Spectrogram normalization (synthesizer/audio_utils.py) ---- -/

/-- The hyperparameter fields consumed by _normalize and _denormalize. -/
structure NormHParams where
  allow_clipping_in_normalization : Bool
  symmetric_mels : Bool
  max_abs_value : ℚ
  min_level_db : ℚ

/-- np.clip for a scalar: clamp x into [lo, hi]. -/
def npClip (x lo hi : ℚ) : ℚ := max lo (min x hi)

/-- Embeds _normalize (audio_utils.py lines 192-204), elementwise over the
decibel spectrogram values.  The assert on the no-clipping path
(S.max() <= 0 and S.min() - min_level_db >= 0) is modelled by returning
none when it fails. -/
def audioNormalize (hp : NormHParams) (S : List ℚ) : Option (List ℚ) :=
  if hp.allow_clipping_in_normalization then
    if hp.symmetric_mels then
      some (S.map (fun s =>
        npClip ((2 * hp.max_abs_value) * ((s - hp.min_level_db) / (-hp.min_level_db))
            - hp.max_abs_value)
          (-hp.max_abs_value) hp.max_abs_value))
    else
      some (S.map (fun s =>
        npClip (hp.max_abs_value * ((s - hp.min_level_db) / (-hp.min_level_db)))
          0 hp.max_abs_value))
  else if S.all (fun s => decide (s ≤ 0)) && S.all (fun s => decide (0 ≤ s - hp.min_level_db)) then
    if hp.symmetric_mels then
      some (S.map (fun s =>
        (2 * hp.max_abs_value) * ((s - hp.min_level_db) / (-hp.min_level_db))
          - hp.max_abs_value))
    else
      some (S.map (fun s =>
        hp.max_abs_value * ((s - hp.min_level_db) / (-hp.min_level_db))))
  else none

/-- Embeds _denormalize (audio_utils.py lines 206-218), elementwise. -/
def audioDenormalize (hp : NormHParams) (D : List ℚ) : List ℚ :=
  if hp.allow_clipping_in_normalization then
    if hp.symmetric_mels then
      D.map (fun d =>
        (npClip d (-hp.max_abs_value) hp.max_abs_value + hp.max_abs_value)
            * (-hp.min_level_db) / (2 * hp.max_abs_value)
          + hp.min_level_db)
    else
      D.map (fun d =>
        npClip d 0 hp.max_abs_value * (-hp.min_level_db) / hp.max_abs_value
          + hp.min_level_db)
  else
    if hp.symmetric_mels then
      D.map (fun d =>
        (d + hp.max_abs_value) * (-hp.min_level_db) / (2 * hp.max_abs_value)
          + hp.min_level_db)
    else
      D.map (fun d =>
        d * (-hp.min_level_db) / hp.max_abs_value + hp.min_level_db)

/- ---- Location-sensitive attention LSA (tacotron.py lines 257-295) ---- -/

/-- Softmax over a list of real scores (F.softmax along the time axis). -/
noncomputable def softmaxR (u : List ℝ) : List ℝ :=
  u.map (fun x => Real.exp x / (u.map Real.exp).sum)

/-- Embeds the masking line of LSA.forward (tacotron.py line 288):
u = u * (chars != 0).float().  The pre-softmax score at a position is
multiplied by 0 exactly when the character there is the padding index 0. -/
noncomputable def maskScores (u : List ℝ) (chars : List ℕ) : List ℝ :=
  List.zipWith (fun x c => x * (if c ≠ 0 then (1 : ℝ) else 0)) u chars

/-- Embeds the score normalization of LSA.forward (tacotron.py lines 288-291):
mask the raw scores, then softmax over the time axis. -/
noncomputable def lsaAttend (u : List ℝ) (chars : List ℕ) : List ℝ :=
  softmaxR (maskScores u chars)

/-- The mutable state of the LSA module: self.cumulative and self.attention. -/
structure LSAState where
  cumulative : List ℝ
  attention : List ℝ

/-- Elementwise sum of two attention-weight vectors. -/
noncomputable def zipAdd (a b : List ℝ) : List ℝ := List.zipWith (fun x y => x + y) a b

/-- Embeds one call of LSA.forward (tacotron.py lines 276-295).  When t = 0 the
state is first reinitialized to zeros (init_attention, lines 269-274).  The raw
pre-mask score vector u = v(tanh(processed_query + encoder_seq_proj +
processed_loc)) is modelled as an uninterpreted function f of the cumulative
accumulator (the only piece of LSA state it reads, through the location
convolution).  Returns the emitted attention weights and the new state. -/
noncomputable def lsaStep (encLen : ℕ) (f : List ℝ → List ℝ) (chars : List ℕ)
    (t : ℕ) (st : LSAState) : List ℝ × LSAState :=
  if t = 0 then
    (lsaAttend (f (List.replicate encLen 0)) chars,
     ⟨zipAdd (List.replicate encLen 0) (lsaAttend (f (List.replicate encLen 0)) chars),
      lsaAttend (f (List.replicate encLen 0)) chars⟩)
  else
    (lsaAttend (f st.cumulative) chars,
     ⟨zipAdd st.cumulative (lsaAttend (f st.cumulative) chars),
      lsaAttend (f st.cumulative) chars⟩)

/-- Runs a sequence of LSA.forward calls; each trace entry carries the step
index t passed by the decoder and the raw-score function for that step.
Returns all emitted weight vectors and the final state. -/
noncomputable def lsaRun (encLen : ℕ) (chars : List ℕ) :
    List (ℕ × (List ℝ → List ℝ)) → LSAState → List (List ℝ) × LSAState
  | [], st => ([], st)
  | p :: rest, st =>
    ((lsaStep encLen p.2 chars p.1 st).1
        :: (lsaRun encLen chars rest (lsaStep encLen p.2 chars p.1 st).2).1,
     (lsaRun encLen chars rest (lsaStep encLen p.2 chars p.1 st).2).2)

/- ---- Tacotron.generate decode loop (tacotron.py lines 541-552) ---- -/

/-- Embeds the early-stop test of Tacotron.generate (tacotron.py line 552):
(stop_tokens > 0.5).all() and t > 10.  `stop t` is the vector of per-batch
stop probabilities produced at the decode iteration whose frame index is t.
Note the threshold is the literal 0.5; the stop_threshold buffer registered by
the constructor is not consulted. -/
def breakCond (stop : ℕ → List ℚ) (t : ℕ) : Bool :=
  ((stop t).all (fun p => decide (mkRat 1 2 < p))) && decide (10 < t)

/-- Embeds the decode loop `for t in range(0, steps, self.r)` of
Tacotron.generate with its break (tacotron.py lines 541-552), recording the
frame indices t of the iterations that execute.  Fuel bounds the recursion;
steps + 1 suffices whenever r is at least 1. -/
def genLoopAux (steps r : ℕ) (stop : ℕ → List ℚ) : ℕ → ℕ → List ℕ
  | 0, _ => []
  | fuel + 1, t =>
    if t < steps then
      t :: (if breakCond stop t then [] else genLoopAux steps r stop fuel (t + r))
    else []

/-- The frame indices of the decoder iterations executed by Tacotron.generate. -/
def genVisited (steps r : ℕ) (stop : ℕ → List ℚ) : List ℕ :=
  genLoopAux steps r stop (steps + 1) 0

/-- The frame indices of `range(0, steps, r)` with the same fuel discipline but
no break: all iterations the loop would run in the absence of early stopping. -/
def gridAux (steps r : ℕ) : ℕ → ℕ → List ℕ
  | 0, _ => []
  | fuel + 1, t => if t < steps then t :: gridAux steps r fuel (t + r) else []

/-- All frame indices of `range(0, steps, r)`. -/
def gridPoints (steps r : ℕ) : List ℕ := gridAux steps r (steps + 1) 0

/-- Specification-side truncation: the prefix of a list up to and including the
first element satisfying p (the whole list when no element satisfies p). -/
def takeThrough (p : ℕ → Bool) : List ℕ → List ℕ
  | [] => []
  | x :: xs => if p x then [x] else x :: takeThrough p xs

/- ---- Decoder mel frame projection (tacotron.py lines 307-395) ---- -/

/-- Decoder.max_r (tacotron.py line 308). -/
def Decoder.max_r : ℕ := 20

/-- Dot product of two rational vectors (truncating at the shorter one). -/
def dotProd (xs ys : List ℚ) : ℚ := (List.zipWith (fun a b => a * b) xs ys).sum

/-- A bias-free linear layer: one output per weight row. -/
def matVec (W : List (List ℚ)) (v : List ℚ) : List ℚ := W.map (fun row => dotProd row v)

/-- torch.view of a flat row as n chunks of length k (row-major). -/
def viewChunks (k : ℕ) : ℕ → List ℚ → List (List ℚ)
  | 0, _ => []
  | n + 1, l => l.take k :: viewChunks k n (l.drop k)

/-- Embeds the mel frame emission of Decoder.forward (tacotron.py lines
385-386): mels = self.mel_proj(x); mels.view(batch_size, n_mels, max_r)[:, :, :r].
`melW` is the mel_proj weight matrix (n_mels * max_r rows), `xrows` the final
hidden representation x, one row per batch element. -/
def decoderMelFrames (melW : List (List ℚ)) (n_mels r : ℕ) (xrows : List (List ℚ)) :
    List (List (List ℚ)) :=
  xrows.map (fun x =>
    (viewChunks Decoder.max_r n_mels (matVec melW x)).map (fun row => row.take r))

/- ---- collate_synthesizer (synthesizer_dataset.py lines 60-102) ---- -/

/-- Embeds the padded mel time-length computation of collate_synthesizer
(synthesizer_dataset.py lines 69-72): max(spec_lens) + 1, rounded up to the
next multiple of r. -/
def collateMaxSpecLen (specLens : List ℕ) (r : ℕ) : ℕ :=
  if (specLens.foldr max 0 + 1) % r ≠ 0 then
    specLens.foldr max 0 + 1 + (r - (specLens.foldr max 0 + 1) % r)
  else
    specLens.foldr max 0 + 1

/-- Embeds pad2d (synthesizer_dataset.py lines 101-102): pad every row of a
2-d array on the right up to max_len with a constant value (time is the last
axis, so each row is one mel channel over time). -/
def pad2d (x : List (List ℚ)) (max_len : ℕ) (pad_value : ℚ) : List (List ℚ) :=
  x.map (fun row => row ++ List.replicate (max_len - row.length) pad_value)

/- ===================== Helper lemmas ===================== -/

lemma le_foldr_max (L : List ℕ) : ∀ x ∈ L, x ≤ L.foldr max 0 := by
  induction L with
  | nil => intro x hx; cases hx
  | cons a l ih =>
    intro x hx
    rcases List.mem_cons.mp hx with h | h
    · subst h; exact le_max_left _ _
    · exact le_trans (ih x h) (le_max_right _ _)

lemma viewChunks_length (k n : ℕ) : ∀ l : List ℚ, (viewChunks k n l).length = n := by
  induction n with
  | zero => intro l; simp [viewChunks]
  | succ n ih => intro l; simp [viewChunks, ih]

lemma viewChunks_row_length (k n : ℕ) :
    ∀ l : List ℚ, l.length = n * k → ∀ c ∈ viewChunks k n l, c.length = k := by
  induction n with
  | zero => intro l _ c hc; simp [viewChunks] at hc
  | succ n ih =>
    intro l hl c hc
    simp only [viewChunks, List.mem_cons] at hc
    rcases hc with h | h
    · subst h
      have hk : k ≤ l.length := by
        rw [hl, Nat.succ_mul]; omega
      simp [List.length_take, Nat.min_eq_left hk]
    · refine ih (l.drop k) ?_ c h
      rw [List.length_drop, hl, Nat.succ_mul]
      omega

lemma genLoopAux_eq_takeThrough (steps r : ℕ) (stop : ℕ → List ℚ) :
    ∀ fuel t, genLoopAux steps r stop fuel t
      = takeThrough (breakCond stop) (gridAux steps r fuel t) := by
  intro fuel
  induction fuel with
  | zero => intro t; simp [genLoopAux, gridAux, takeThrough]
  | succ fuel ih =>
    intro t
    by_cases ht : t < steps
    · cases hb : breakCond stop t
      · simp [genLoopAux, gridAux, takeThrough, ht, hb, ih]
      · simp [genLoopAux, gridAux, takeThrough, ht, hb]
    · simp [genLoopAux, gridAux, takeThrough, ht]

lemma genLoopAux_of_ge (steps r : ℕ) (stop : ℕ → List ℚ) :
    ∀ fuel t, steps ≤ t → genLoopAux steps r stop fuel t = [] := by
  intro fuel t ht
  cases fuel with
  | zero => simp [genLoopAux]
  | succ fuel => simp [genLoopAux, Nat.not_lt.mpr ht]

lemma genLoopAux_len_bound (steps r : ℕ) (stop : ℕ → List ℚ) (hr : 1 ≤ r) :
    ∀ fuel t, t < steps →
      t + (genLoopAux steps r stop fuel t).length * r ≤ steps - 1 + r := by
  intro fuel
  induction fuel with
  | zero => intro t ht; simp [genLoopAux]; omega
  | succ fuel ih =>
    intro t ht
    simp only [genLoopAux, if_pos ht]
    cases hb : breakCond stop t
    · simp only [Bool.false_eq_true, if_false, List.length_cons]
      by_cases ht2 : t + r < steps
      · have hih := ih (t + r) ht2
        have hmul : ((genLoopAux steps r stop fuel (t + r)).length + 1) * r
            = (genLoopAux steps r stop fuel (t + r)).length * r + r := by
          rw [Nat.add_mul, Nat.one_mul]
        omega
      · rw [genLoopAux_of_ge steps r stop fuel (t + r) (Nat.not_lt.mp ht2)]
        simp
        omega
    · simp only [if_true]
      simp
      omega

lemma genLoopAux_self_mem (steps r : ℕ) (stop : ℕ → List ℚ) :
    ∀ fuel t, t < steps → 1 ≤ fuel → t ∈ genLoopAux steps r stop fuel t := by
  intro fuel t ht hf
  cases fuel with
  | zero => omega
  | succ fuel => simp [genLoopAux, ht]

lemma genLoopAux_next_mem (steps r : ℕ) (stop : ℕ → List ℚ) (hr : 1 ≤ r) :
    ∀ fuel t u, steps ≤ fuel + t → u ∈ genLoopAux steps r stop fuel t →
      breakCond stop u = false → u + r < steps →
      u + r ∈ genLoopAux steps r stop fuel t := by
  intro fuel
  induction fuel with
  | zero => intro t u _ hu _ _; simp [genLoopAux] at hu
  | succ fuel ih =>
    intro t u hfu hu hbu hur
    by_cases ht : t < steps
    · simp only [genLoopAux, if_pos ht] at hu ⊢
      cases hb : breakCond stop t
      · rw [hb] at hu
        simp only [Bool.false_eq_true, if_false, List.mem_cons] at hu ⊢
        rcases hu with h | h
        · subst h
          right
          exact genLoopAux_self_mem steps r stop fuel (u + r) hur (by omega)
        · right
          exact ih (t + r) u (by omega) h hbu hur
      · rw [hb] at hu
        simp only [if_true, List.mem_cons, List.not_mem_nil, or_false] at hu
        subst hu
        rw [hbu] at hb
        cases hb
    · rw [genLoopAux_of_ge steps r stop _ t (Nat.not_lt.mp ht)] at hu
      cases hu

/- ===================== Claim theorems ===================== -/

/-- C8: constructing the sampler (RandomCycler.init) from an empty pool fails
immediately with the empty-collection error, and constructing it from any
non-empty pool succeeds without raising. -/
theorem randomCycler_init_empty_check {α : Type} (source : List α) :
    (RandomCycler.init source
        = Except.error "RandomCycler was provided an empty collection."
      ↔ source = []) ∧
    ((RandomCycler.init source).isOk = true ↔ source ≠ []) := by
  cases source with
  | nil => simp [RandomCycler.init, Except.isOk, Except.toBool]
  | cons a l => simp [RandomCycler.init, Except.isOk, Except.toBool]

/-- C10: for a non-empty batch and a reduction factor r of at least 1, the
padded mel time length chosen by collate_synthesizer is a multiple of r and is
strictly greater than every spectrogram length of the batch, and pad2d pads
every mel row to exactly that length. -/
theorem collate_padded_len_multiple (specLens : List ℕ) (r : ℕ)
    (hr : 1 ≤ r) (hne : specLens ≠ []) :
    collateMaxSpecLen specLens r % r = 0 ∧
    (∀ l ∈ specLens, l < collateMaxSpecLen specLens r) ∧
    (∀ (mel : List (List ℚ)) (pv : ℚ), (∀ row ∈ mel, row.length ∈ specLens) →
      ∀ row2 ∈ pad2d mel (collateMaxSpecLen specLens r) pv,
        row2.length = collateMaxSpecLen specLens r) := by
  have hlt : ∀ l ∈ specLens, l < collateMaxSpecLen specLens r := by
    intro l hl
    have hle : l ≤ specLens.foldr max 0 := le_foldr_max specLens l hl
    unfold collateMaxSpecLen
    by_cases h : (specLens.foldr max 0 + 1) % r ≠ 0 <;> simp [h] <;> omega
  refine ⟨?_, hlt, ?_⟩
  · unfold collateMaxSpecLen
    by_cases h : (specLens.foldr max 0 + 1) % r ≠ 0
    · rw [if_pos h]
      have hq : (specLens.foldr max 0 + 1) % r < r := Nat.mod_lt _ (by omega)
      have hd : r * ((specLens.foldr max 0 + 1) / r) + (specLens.foldr max 0 + 1) % r
          = specLens.foldr max 0 + 1 := Nat.div_add_mod _ r
      have he : specLens.foldr max 0 + 1 + (r - (specLens.foldr max 0 + 1) % r)
          = r * ((specLens.foldr max 0 + 1) / r) + r := by omega
      rw [he, ← Nat.mul_succ]
      exact Nat.mul_mod_right r _
    · rw [if_neg h]
      omega
  · intro mel pv hrows row2 hrow2
    simp only [pad2d, List.mem_map] at hrow2
    obtain ⟨row, hrow, heq⟩ := hrow2
    subst heq
    have : row.length < collateMaxSpecLen specLens r := hlt _ (hrows row hrow)
    simp [List.length_append, List.length_replicate]
    omega

/-- C9: one decoder step emits a frame group of shape (batch_size, n_mels, r):
the mel projection output viewed as (batch, n_mels, max_r) and sliced to the
first r frames has outer length batch_size, n_mels rows per batch element, and
r entries per row, for every reduction factor 1 <= r <= Decoder.max_r. -/
theorem decoder_frame_group_shape (melW : List (List ℚ)) (n_mels r : ℕ)
    (xrows : List (List ℚ))
    (hW : melW.length = n_mels * Decoder.max_r)
    (hr1 : 1 ≤ r) (hr2 : r ≤ Decoder.max_r) :
    (decoderMelFrames melW n_mels r xrows).length = xrows.length ∧
    ∀ fr ∈ decoderMelFrames melW n_mels r xrows,
      fr.length = n_mels ∧ ∀ row ∈ fr, row.length = r := by
  constructor
  · simp [decoderMelFrames]
  · intro fr hfr
    simp only [decoderMelFrames, List.mem_map] at hfr
    obtain ⟨x, hx, heq⟩ := hfr
    subst heq
    constructor
    · simp [viewChunks_length]
    · intro row hrow
      simp only [List.mem_map] at hrow
      obtain ⟨c, hc, heq⟩ := hrow
      subst heq
      have hlen : (matVec melW x).length = n_mels * Decoder.max_r := by
        simp [matVec, hW]
      have := viewChunks_row_length Decoder.max_r n_mels (matVec melW x) hlen c hc
      simp [List.length_take, this, Nat.min_eq_left hr2]

/-- Witness for C9 at the concrete scenario of the spec: batch size 1, r = 5,
n_mels = 2; the emitted frame group has one batch element. -/
theorem decoder_frame_group_shape_witness :
    (decoderMelFrames (List.replicate (2 * Decoder.max_r) [1]) 2 5 [[3]]).length = 1 :=
  (decoder_frame_group_shape (List.replicate (2 * Decoder.max_r) [1]) 2 5 [[3]]
    (by simp) (by norm_num) (by norm_num [Decoder.max_r])).1

/-- C2 (amended): the generation decode loop visits the frame indices of
range(0, steps, r) up to and including the first one where every stop
probability exceeds the literal threshold 1/2 AND the frame index t exceeds
10; the configured stop_threshold buffer plays no role, and the warm-up bound
is on the frame index t (which advances in increments of r), not on the
number of decoder steps. -/
theorem generate_loop_first_break (steps r : ℕ) (stop : ℕ → List ℚ) :
    genVisited steps r stop = takeThrough (breakCond stop) (gridPoints steps r) :=
  genLoopAux_eq_takeThrough steps r stop (steps + 1) 0

/-- C2 counterexample: with the stop probability constantly 3/5 and a
configured stop threshold of 9/10, the claim says the loop never terminates
early (3/5 never exceeds 9/10), yet the code stops after visiting only 12 of
the 15 loop iterations, because it compares against the literal 1/2. -/
theorem generate_loop_threshold_counterexample :
    (genVisited 15 1 (fun _ => [mkRat 3 5])).length = 12 ∧
    (gridPoints 15 1).length = 15 ∧
    ¬ (mkRat 9 10 < mkRat 3 5) ∧
    mkRat 1 2 < mkRat 3 5 := by
  refine ⟨by decide, by decide, by decide, by decide⟩

/-- C3 (amended): generation-mode decoding performs at most
ceil(steps / r) decoder steps, and the loop never stops early at a frame
index t <= 10: if a visited frame index u is at most 10 and another iteration
fits below the steps bound, that next iteration is also executed.  (The
warm-up is measured in frames t, not decoder steps, so for r > 1 the loop can
terminate after fewer than 10 decoder steps; see the counterexample.) -/
theorem generate_step_bound_and_warmup (steps r : ℕ) (stop : ℕ → List ℚ)
    (hr : 1 ≤ r) :
    (genVisited steps r stop).length ≤ (steps + r - 1) / r ∧
    ∀ u ∈ genVisited steps r stop, u ≤ 10 → u + r < steps →
      u + r ∈ genVisited steps r stop := by
  constructor
  · by_cases hs : steps = 0
    · subst hs
      simp [genVisited, genLoopAux]
    · have hb := genLoopAux_len_bound steps r stop hr (steps + 1) 0 (by omega)
      have : (genVisited steps r stop).length * r ≤ steps + r - 1 := by
        unfold genVisited
        omega
      exact (Nat.le_div_iff_mul_le (by omega)).mpr this
  · intro u hu h10 hur
    have hbu : breakCond stop u = false := by
      simp [breakCond, Nat.not_lt.mpr h10]
    exact genLoopAux_next_mem steps r stop hr (steps + 1) 0 u (by omega) hu hbu hur

/-- Witness for C3 (amended) at steps = 5, r = 2, constant zero stop
probability. -/
theorem generate_step_bound_witness :
    (genVisited 5 2 (fun _ => [(0 : ℚ)])).length ≤ (5 + 2 - 1) / 2 :=
  (generate_step_bound_and_warmup 5 2 (fun _ => [(0 : ℚ)]) (by norm_num)).1

/-- C3 counterexample: with r = 20 and the stop probability constantly 1
(above every threshold from the very first step), the loop stops after only 2
decoder steps, far before decoder step 10, even though 5 iterations were
available; so decoding can terminate before decoder step 10. -/
theorem generate_warmup_counterexample :
    genVisited 100 20 (fun _ => [(1 : ℚ)]) = [0, 20] ∧
    (genVisited 100 20 (fun _ => [(1 : ℚ)])).length < 10 ∧
    (gridPoints 100 20).length = 5 ∧
    mkRat 1 2 < (1 : ℚ) := by
  refine ⟨by decide, by decide, by decide, by decide⟩

/-- C4: the 2(n-1) gap guarantee stated in the random_cycler.py docstring is
violated by the code.  With pool [0, 1] (n = 2), shuffle resolutions that are
all legal permutations of the pool, and the call sequence sample(1), sample(2),
sample(1), sample(1), sample(2), the output stream is [0,0,1,1,1,1,0]: between
the consecutive occurrences of item 0 at positions 1 and 6 there are 4 other
items, but 2 * (n - 1) = 2 < 4. -/
theorem randomCycler_gap_bound_violated :
    runCalls [0, 1] c4Perms [1, 2, 1, 1, 2] [] 0 = some [0, 0, 1, 1, 1, 1, 0] ∧
    (c4Perms 0).Perm [0, 1] ∧ (c4Perms 1).Perm [0, 1] ∧
    (c4Perms 2).Perm [0, 1] ∧ (c4Perms 3).Perm [0, 1] ∧
    [0, 0, 1, 1, 1, 1, 0].getD 1 9 = 0 ∧
    [0, 0, 1, 1, 1, 1, 0].getD 6 9 = 0 ∧
    (([0, 0, 1, 1, 1, 1, 0].drop 2).take 4).count 0 = 0 ∧
    (([0, 0, 1, 1, 1, 1, 0].drop 2).take 4).length = 4 ∧
    2 * ([0, 1].length - 1) < 4 := by
  refine ⟨by decide, by decide, by decide, by decide, by decide,
    by decide, by decide, by decide, by decide, by decide⟩

lemma map_id_of_mem {β : Type} (l : List β) (f : β → β) (h : ∀ x ∈ l, f x = x) :
    l.map f = l := by
  induction l with
  | nil => rfl
  | cons a t ih =>
    rw [List.map_cons, h a (List.mem_cons_self a t), ih (fun x hx => h x (List.mem_cons_of_mem a hx))]

lemma npClip_eq_self (x lo hi : ℚ) (h1 : lo ≤ x) (h2 : x ≤ hi) : npClip x lo hi = x := by
  unfold npClip
  rw [min_eq_left h2, max_eq_right h1]

lemma unit_bounds (L s : ℚ) (hL : L < 0) (h1 : L ≤ s) (h2 : s ≤ 0) :
    0 ≤ (s - L) / (-L) ∧ (s - L) / (-L) ≤ 1 := by
  constructor
  · exact div_nonneg (by linarith) (by linarith)
  · rw [div_le_one (by linarith)]
    linarith

lemma sym_norm_mem (M L s : ℚ) (hM : 0 < M) (hL : L < 0) (h1 : L ≤ s) (h2 : s ≤ 0) :
    -M ≤ 2 * M * ((s - L) / (-L)) - M ∧ 2 * M * ((s - L) / (-L)) - M ≤ M := by
  obtain ⟨hu0, hu1⟩ := unit_bounds L s hL h1 h2
  constructor <;> nlinarith

lemma asym_norm_mem (M L s : ℚ) (hM : 0 < M) (hL : L < 0) (h1 : L ≤ s) (h2 : s ≤ 0) :
    0 ≤ M * ((s - L) / (-L)) ∧ M * ((s - L) / (-L)) ≤ M := by
  obtain ⟨hu0, hu1⟩ := unit_bounds L s hL h1 h2
  constructor <;> nlinarith

lemma sym_denorm (M L s : ℚ) (hM : M ≠ 0) (hL : L ≠ 0) :
    (2 * M * ((s - L) / (-L)) - M + M) * (-L) / (2 * M) + L = s := by
  field_simp

lemma asym_denorm (M L s : ℚ) (hM : M ≠ 0) (hL : L ≠ 0) :
    M * ((s - L) / (-L)) * (-L) / M + L = s := by
  field_simp

/-- C7: for every decibel spectrogram whose values lie in [min_level_db, 0]
and every configuration with max_abs_value > 0 and min_level_db < 0
(symmetric or asymmetric mels, clipping allowed or not), _denormalize inverts
_normalize exactly (hence within any floating-point tolerance). -/
theorem normalize_denormalize_roundtrip (hp : NormHParams) (S : List ℚ)
    (hM : 0 < hp.max_abs_value) (hL : hp.min_level_db < 0)
    (hS : ∀ s ∈ S, hp.min_level_db ≤ s ∧ s ≤ 0) :
    (audioNormalize hp S).map (audioDenormalize hp) = some S := by
  obtain ⟨ac, sm, M, L⟩ := hp
  simp only at hM hL hS
  have hMne : M ≠ 0 := ne_of_gt hM
  have hLne : L ≠ 0 := ne_of_lt hL
  have hall1 : S.all (fun s => decide (s ≤ 0)) = true := by
    rw [List.all_eq_true]
    intro s hs
    exact decide_eq_true (hS s hs).2
  have hall2 : S.all (fun s => decide (0 ≤ s - L)) = true := by
    rw [List.all_eq_true]
    intro s hs
    have := (hS s hs).1
    exact decide_eq_true (by linarith)
  cases ac <;> cases sm
  · -- no clipping, asymmetric
    simp only [audioNormalize, audioDenormalize, Bool.false_eq_true, if_false, hall1, hall2,
      Bool.and_self, if_true, Option.map_some']
    rw [Option.some_inj, List.map_map]
    apply map_id_of_mem
    intro s hs
    obtain ⟨h1, h2⟩ := hS s hs
    simp only [Function.comp_apply]
    exact asym_denorm M L s hMne hLne
  · -- no clipping, symmetric
    simp only [audioNormalize, audioDenormalize, Bool.false_eq_true, if_false, hall1, hall2,
      Bool.and_self, if_true, Option.map_some']
    rw [Option.some_inj, List.map_map]
    apply map_id_of_mem
    intro s hs
    obtain ⟨h1, h2⟩ := hS s hs
    simp only [Function.comp_apply]
    exact sym_denorm M L s hMne hLne
  · -- clipping, asymmetric
    simp only [audioNormalize, audioDenormalize, if_true, Bool.false_eq_true, if_false,
      Option.map_some']
    rw [Option.some_inj, List.map_map]
    apply map_id_of_mem
    intro s hs
    obtain ⟨h1, h2⟩ := hS s hs
    obtain ⟨hb1, hb2⟩ := asym_norm_mem M L s hM hL h1 h2
    simp only [Function.comp_apply]
    rw [npClip_eq_self _ _ _ hb1 hb2, npClip_eq_self _ _ _ hb1 hb2]
    exact asym_denorm M L s hMne hLne
  · -- clipping, symmetric
    simp only [audioNormalize, audioDenormalize, if_true, Option.map_some']
    rw [Option.some_inj, List.map_map]
    apply map_id_of_mem
    intro s hs
    obtain ⟨h1, h2⟩ := hS s hs
    obtain ⟨hb1, hb2⟩ := sym_norm_mem M L s hM hL h1 h2
    simp only [Function.comp_apply]
    rw [npClip_eq_self _ _ _ hb1 hb2, npClip_eq_self _ _ _ hb1 hb2]
    exact sym_denorm M L s hMne hLne

/-- Witness for C7: a concrete symmetric clipped configuration with
max_abs_value 4, min_level_db -100, and a spectrogram spanning the full range. -/
theorem normalize_roundtrip_witness :
    (audioNormalize ⟨true, true, 4, -100⟩ [-100, -50, 0]).map
      (audioDenormalize ⟨true, true, 4, -100⟩) = some [-100, -50, 0] :=
  normalize_denormalize_roundtrip ⟨true, true, 4, -100⟩ [-100, -50, 0]
    (by decide) (by decide) (by decide)

lemma sum_map_exp_nonneg (l : List ℝ) : 0 ≤ (l.map Real.exp).sum := by
  induction l with
  | nil => simp
  | cons a t ih =>
    simp only [List.map_cons, List.sum_cons]
    exact add_nonneg (Real.exp_pos a).le ih

lemma sum_map_exp_pos (l : List ℝ) (h : l ≠ []) : 0 < (l.map Real.exp).sum := by
  cases l with
  | nil => exact absurd rfl h
  | cons a t =>
    simp only [List.map_cons, List.sum_cons]
    exact add_pos_of_pos_of_nonneg (Real.exp_pos a) (sum_map_exp_nonneg t)

lemma sum_map_div_exp (l : List ℝ) (c : ℝ) :
    (l.map (fun x => Real.exp x / c)).sum = (l.map Real.exp).sum / c := by
  induction l with
  | nil => simp
  | cons a t ih => simp [List.map_cons, List.sum_cons, ih, add_div]

lemma softmaxR_sum (u : List ℝ) (h : u ≠ []) : (softmaxR u).sum = 1 := by
  unfold softmaxR
  rw [sum_map_div_exp]
  exact div_self (ne_of_gt (sum_map_exp_pos u h))

lemma softmaxR_pos (u : List ℝ) (h : u ≠ []) : ∀ w ∈ softmaxR u, 0 < w := by
  intro w hw
  unfold softmaxR at hw
  obtain ⟨x, _, rfl⟩ := List.mem_map.mp hw
  exact div_pos (Real.exp_pos x) (sum_map_exp_pos u h)

lemma maskScores_ne_nil (u : List ℝ) (chars : List ℕ)
    (hlen : u.length = chars.length) (hne : u ≠ []) : maskScores u chars ≠ [] := by
  intro hcon
  have hl : (maskScores u chars).length = 0 := by rw [hcon]; rfl
  simp only [maskScores, List.length_zipWith, hlen, min_self] at hl
  exact hne (List.length_eq_zero.mp (hlen ▸ hl))

lemma maskScores_zero_at_pad : ∀ (u : List ℝ) (chars : List ℕ),
    ∀ pc ∈ List.zip (maskScores u chars) chars, pc.2 = 0 → pc.1 = 0 := by
  intro u
  induction u with
  | nil => intro chars pc hpc; simp [maskScores] at hpc
  | cons x xs ih =>
    intro chars pc hpc hz
    cases chars with
    | nil => simp [maskScores] at hpc
    | cons c cs =>
      simp only [maskScores, List.zipWith_cons_cons, List.zip_cons_cons, List.mem_cons] at hpc
      rcases hpc with h | h
      · subst h
        simp only at hz
        subst hz
        simp
      · exact ih cs pc h hz

/-- C1 (amended): at every decode step of LSA.forward, the pre-softmax scores
are set to 0 at the positions where the character index is the padding value
0; the subsequent softmax normalizes over ALL positions, so the returned
attention weights sum to 1 across the whole time axis (not only the valid
positions) and every position — including every padding position — receives a
strictly positive weight, never an exactly-zero one. -/
theorem lsa_mask_softmax_weights (u : List ℝ) (chars : List ℕ)
    (hlen : u.length = chars.length) (hne : u ≠ []) :
    (∀ pc ∈ List.zip (maskScores u chars) chars, pc.2 = 0 → pc.1 = 0) ∧
    (lsaAttend u chars).sum = 1 ∧
    (∀ w ∈ lsaAttend u chars, 0 < w) := by
  have hm := maskScores_ne_nil u chars hlen hne
  exact ⟨maskScores_zero_at_pad u chars, softmaxR_sum _ hm, softmaxR_pos _ hm⟩

/-- Witness for C1 (amended): character sequence [1, 0] with position 1 a
padding position. -/
theorem lsa_mask_softmax_weights_witness :
    (lsaAttend [(0 : ℝ), 0] [1, 0]).sum = 1 :=
  (lsa_mask_softmax_weights [(0 : ℝ), 0] [1, 0] (by simp) (by simp)).2.1

/-- C1 counterexample: with character sequence [1, 0] (position 1 is padding)
and raw scores [0, 0], LSA.forward returns weight 1/2 at the padding position
(not 0) and the weights over the valid positions sum to 1/2 (not 1): zeroing
the pre-softmax score of a padding position makes softmax assign it
exp(0)/Z > 0. -/
theorem lsa_padding_weight_counterexample :
    (lsaAttend [(0 : ℝ), 0] [1, 0]).getD 1 0 = 1/2 ∧
    ((1 : ℝ)/2 ≠ 0) ∧
    (lsaAttend [(0 : ℝ), 0] [1, 0]).getD 0 0 = 1/2 ∧
    ((1 : ℝ)/2 ≠ 1) := by
  have hmask : maskScores [(0 : ℝ), 0] [1, 0] = [0, 0] := by
    simp [maskScores]
  have hsm : softmaxR [(0 : ℝ), 0] = [1/2, 1/2] := by
    simp [softmaxR, Real.exp_zero]
    norm_num
  refine ⟨?_, by norm_num, ?_, by norm_num⟩
  · unfold lsaAttend
    rw [hmask, hsm]
    rfl
  · unfold lsaAttend
    rw [hmask, hsm]
    rfl

lemma lsaRun_nonzero (encLen : ℕ) (chars : List ℕ) :
    ∀ (inputs : List (ℕ × (List ℝ → List ℝ))) (st : LSAState),
      (∀ p ∈ inputs, p.1 ≠ 0) →
      (lsaRun encLen chars inputs st).2.cumulative
        = (lsaRun encLen chars inputs st).1.foldl zipAdd st.cumulative := by
  intro inputs
  induction inputs with
  | nil => intro st _; simp [lsaRun]
  | cons p rest ih =>
    intro st h
    have hp : p.1 ≠ 0 := h p (List.mem_cons_self p rest)
    simp only [lsaRun]
    rw [ih _ (fun q hq => h q (List.mem_cons_of_mem p hq)), List.foldl_cons]
    congr 1
    simp [lsaStep, hp]

/-- C6: after the LSA module processes a trace whose first call carries step
index 0 and whose later calls carry nonzero step indices, the cumulative
accumulator equals the elementwise sum (from the zero vector) of all attention
weight vectors emitted along the trace, regardless of the state the module
held before the trace; and a call with nonzero step index never clears the
accumulator — it always extends it by exactly the emitted weights (the
step_index = 0 reinitialization is the only reset point). -/
theorem lsa_cumulative_is_sum (encLen : ℕ) (chars : List ℕ)
    (f0 : List ℝ → List ℝ) (rest : List (ℕ × (List ℝ → List ℝ))) (st : LSAState)
    (hrest : ∀ p ∈ rest, p.1 ≠ 0) :
    ((lsaRun encLen chars ((0, f0) :: rest) st).2.cumulative
      = (lsaRun encLen chars ((0, f0) :: rest) st).1.foldl zipAdd
          (List.replicate encLen 0)) ∧
    (∀ (t : ℕ) (f : List ℝ → List ℝ) (st1 : LSAState), t ≠ 0 →
      (lsaStep encLen f chars t st1).2.cumulative
        = zipAdd st1.cumulative (lsaStep encLen f chars t st1).1) := by
  constructor
  · simp only [lsaRun]
    rw [lsaRun_nonzero encLen chars rest _ hrest, List.foldl_cons]
    congr 1
  · intro t f st1 ht
    simp [lsaStep, ht]

/-- Witness for C6: a one-step trace at step index 0 starting from a stale
non-zero state. -/
theorem lsa_cumulative_is_sum_witness :
    (lsaRun 1 [1] [((0 : ℕ), fun _ => [(0 : ℝ)])] ⟨[5], [7]⟩).2.cumulative
      = (lsaRun 1 [1] [((0 : ℕ), fun _ => [(0 : ℝ)])] ⟨[5], [7]⟩).1.foldl zipAdd
          (List.replicate 1 0) :=
  (lsa_cumulative_is_sum 1 [1] (fun _ => [(0 : ℝ)]) [] ⟨[5], [7]⟩ (by simp)).1

section CyclerProofs

variable {α : Type} [DecidableEq α]

lemma perm_count_one (pool l : List α) (hnd : pool.Nodup) (hperm : l.Perm pool)
    (x : α) (hx : x ∈ pool) : l.count x = 1 := by
  rw [hperm.count_eq]
  exact List.count_eq_one_of_mem hnd hx

lemma inv_extend_perm (pool out next p : List α) (hnd : pool.Nodup)
    (hp : p.Perm pool) (hinv : CyclerInv pool out next) :
    CyclerInv pool (out ++ p) next := by
  obtain ⟨q, consumed, hside, hlen, hcount⟩ := hinv
  refine ⟨q + 1, consumed, hside, ?_, ?_⟩
  · rw [List.length_append, hp.length_eq, hlen]
    ring
  · intro x hx
    rw [List.count_append, hcount x hx, perm_count_one pool p hnd hp x hx]
    omega

lemma inv_drain_keep (pool out next : List α) (k : ℕ)
    (hinv : CyclerInv pool out next) (hne : next.drop k ≠ []) :
    CyclerInv pool (out ++ next.take k) (next.drop k) := by
  obtain ⟨q, consumed, hside, hlen, hcount⟩ := hinv
  rcases hside with ⟨hper, hnn⟩ | ⟨hnil, hcon⟩
  · refine ⟨q, consumed ++ next.take k, Or.inl ⟨?_, hne⟩, ?_, ?_⟩
    · rw [List.append_assoc, List.take_append_drop]
      exact hper
    · rw [List.length_append, List.length_append, hlen]
      omega
    · intro x hx
      rw [List.count_append, List.count_append, hcount x hx]
      omega
  · subst hnil
    simp at hne

lemma inv_refill (pool out next pn : List α) (k : ℕ) (hnd : pool.Nodup)
    (hpool : pool ≠ []) (hp : pn.Perm pool)
    (hinv : CyclerInv pool out next) (hk : k ≤ next.length)
    (hdrop : next.drop k = []) :
    CyclerInv pool (out ++ next.take k) pn := by
  have hpn : pn ≠ [] := by
    intro hcon
    subst hcon
    exact hpool hp.symm.eq_nil
  obtain ⟨q, consumed, hside, hlen, hcount⟩ := hinv
  rcases hside with ⟨hper, hnn⟩ | ⟨hnil, hcon⟩
  · have hkl : k = next.length := by
      have hle : next.length ≤ k := List.drop_eq_nil_iff.mp hdrop
      omega
    rw [hkl, List.take_length]
    have hcl : consumed.length + next.length = pool.length := by
      have hpl := hper.length_eq
      rw [List.length_append] at hpl
      exact hpl
    refine ⟨q + 1, [], Or.inl ⟨by simpa using hp, hpn⟩, ?_, ?_⟩
    · rw [List.length_append, hlen]
      have hmul : (q + 1) * pool.length = q * pool.length + pool.length := by ring
      simp only [List.length_nil]
      omega
    · intro x hx
      have h1 := perm_count_one pool (consumed ++ next) hnd hper x hx
      rw [List.count_append] at h1
      rw [List.count_append, hcount x hx]
      simp only [List.count_nil]
      omega
  · subst hnil
    subst hcon
    have hk0 : k = 0 := by simpa using hk
    subst hk0
    refine ⟨q, [], Or.inl ⟨by simpa using hp, hpn⟩, ?_, ?_⟩
    · simpa using hlen
    · intro x hx
      simpa using hcount x hx

lemma sampleAux_spec (pool : List α) (perms : ℕ → List α)
    (hnd : pool.Nodup) (hpool : pool ≠ []) (hperm : ∀ i, (perms i).Perm pool) :
    ∀ fuel count next idx out res,
      CyclerInv pool out next →
      sampleAux pool perms fuel count next idx = some res →
      res.1.length = count ∧ CyclerInv pool (out ++ res.1) res.2.1 := by
  intro fuel
  induction fuel with
  | zero =>
    intro count next idx out res _ h
    simp [sampleAux] at h
  | succ fuel ih =>
    intro count next idx out res hinv h
    simp only [sampleAux] at h
    by_cases hc0 : count = 0
    · rw [if_pos hc0] at h
      simp only [Option.some.injEq] at h
      subst h
      refine ⟨by simp [hc0], by simpa using hinv⟩
    · rw [if_neg hc0] at h
      by_cases hbig : pool.length ≤ count
      · rw [if_pos hbig] at h
        obtain ⟨r1, hrec, hres⟩ := Option.map_eq_some'.mp h
        have hmid := inv_extend_perm pool out next (perms idx) hnd (hperm idx) hinv
        obtain ⟨hlen1, hinv1⟩ :=
          ih (count - pool.length) next (idx + 1) (out ++ perms idx) r1 hmid hrec
        subst hres
        constructor
        · simp only [List.length_append, hlen1, (hperm idx).length_eq]
          omega
        · rw [← List.append_assoc]
          exact hinv1
      · rw [if_neg hbig] at h
        by_cases hdrop : next.drop (min count next.length) = []
        · rw [if_pos hdrop] at h
          obtain ⟨r1, hrec, hres⟩ := Option.map_eq_some'.mp h
          have hmid := inv_refill pool out next (perms idx) (min count next.length)
            hnd hpool (hperm idx) hinv (min_le_right _ _) hdrop
          obtain ⟨hlen1, hinv1⟩ :=
            ih (count - min count next.length) (perms idx) (idx + 1)
              (out ++ next.take (min count next.length)) r1 hmid hrec
          subst hres
          constructor
          · simp only [List.length_append, hlen1, List.length_take]
            omega
          · rw [← List.append_assoc]
            exact hinv1
        · rw [if_neg hdrop] at h
          obtain ⟨r1, hrec, hres⟩ := Option.map_eq_some'.mp h
          have hmid := inv_drain_keep pool out next (min count next.length) hinv hdrop
          obtain ⟨hlen1, hinv1⟩ :=
            ih (count - min count next.length) (next.drop (min count next.length)) idx
              (out ++ next.take (min count next.length)) r1 hmid hrec
          subst hres
          constructor
          · simp only [List.length_append, hlen1, List.length_take]
            omega
          · rw [← List.append_assoc]
            exact hinv1

lemma sampleAux_isSome (pool : List α) (perms : ℕ → List α)
    (hpool : pool ≠ []) (hpermne : ∀ i, perms i ≠ []) :
    ∀ fuel count next idx, 2 * count + (if next = [] then 1 else 0) < fuel →
      ∃ res, sampleAux pool perms fuel count next idx = some res := by
  intro fuel
  induction fuel with
  | zero => intro count next idx h; omega
  | succ fuel ih =>
    intro count next idx h
    by_cases hc0 : count = 0
    · exact ⟨([], next, idx), by simp only [sampleAux]; rw [if_pos hc0]⟩
    · by_cases hbig : pool.length ≤ count
      · have hn1 : 1 ≤ pool.length := List.length_pos.mpr hpool
        have hmeas : 2 * (count - pool.length) + (if next = [] then 1 else 0) < fuel := by
          by_cases hnil : next = [] <;> simp only [hnil, if_pos, if_neg, if_true, if_false] at h ⊢ <;> omega
        obtain ⟨r1, hr1⟩ := ih (count - pool.length) next (idx + 1) hmeas
        refine ⟨(perms idx ++ r1.1, r1.2), ?_⟩
        simp only [sampleAux]
        rw [if_neg hc0, if_pos hbig, hr1]
        rfl
      · by_cases hdrop : next.drop (min count next.length) = []
        · have hne2 : perms idx ≠ [] := hpermne idx
          have hmeas : 2 * (count - min count next.length)
              + (if perms idx = [] then 1 else 0) < fuel := by
            rw [if_neg hne2]
            by_cases hnil : next = []
            · rw [if_pos hnil] at h
              have hk0 : min count next.length = 0 := by simp [hnil]
              omega
            · rw [if_neg hnil] at h
              have hl1 : 1 ≤ next.length := List.length_pos.mpr hnil
              have hc1 : 1 ≤ count := by omega
              omega
          obtain ⟨r1, hr1⟩ := ih (count - min count next.length) (perms idx) (idx + 1) hmeas
          refine ⟨(next.take (min count next.length) ++ r1.1, r1.2), ?_⟩
          simp only [sampleAux]
          rw [if_neg hc0, if_neg hbig, if_pos hdrop, hr1]
          rfl
        · have hnil : next ≠ [] := by
            intro hcon
            subst hcon
            simp at hdrop
          have hl1 : 1 ≤ next.length := List.length_pos.mpr hnil
          have hc1 : 1 ≤ count := by omega
          have hmeas : 2 * (count - min count next.length)
              + (if next.drop (min count next.length) = [] then 1 else 0) < fuel := by
            rw [if_neg hdrop, if_neg hnil] at *
            omega
          obtain ⟨r1, hr1⟩ := ih (count - min count next.length)
            (next.drop (min count next.length)) idx hmeas
          refine ⟨(next.take (min count next.length) ++ r1.1, r1.2), ?_⟩
          simp only [sampleAux]
          rw [if_neg hc0, if_neg hbig, if_neg hdrop, hr1]
          rfl

lemma runCalls_spec (pool : List α) (perms : ℕ → List α)
    (hnd : pool.Nodup) (hpool : pool ≠ []) (hperm : ∀ i, (perms i).Perm pool) :
    ∀ calls next idx out res,
      CyclerInv pool out next →
      runCalls pool perms calls next idx = some res →
      res.length = calls.sum ∧ ∃ next2, CyclerInv pool (out ++ res) next2 := by
  intro calls
  induction calls with
  | nil =>
    intro next idx out res hinv h
    simp only [runCalls, Option.some.injEq] at h
    subst h
    exact ⟨by simp, next, by simpa using hinv⟩
  | cons c cs ih =>
    intro next idx out res hinv h
    cases hs : RandomCycler.sample pool perms c next idx with
    | none =>
      rw [runCalls, hs] at h
      simp only [Option.none_bind] at h
      cases h
    | some r =>
      obtain ⟨o, next2, idx2⟩ := r
      rw [runCalls, hs] at h
      simp only [Option.some_bind] at h
      cases hrc : runCalls pool perms cs next2 idx2 with
      | none =>
        rw [hrc] at h
        simp only [Option.map_none'] at h
        cases h
      | some rest =>
        rw [hrc] at h
        simp only [Option.map_some', Option.some.injEq] at h
        subst h
        have hsamp : sampleAux pool perms (2 * c + 2) c next idx = some (o, next2, idx2) := hs
        obtain ⟨hlo, hinvo⟩ :=
          sampleAux_spec pool perms hnd hpool hperm (2 * c + 2) c next idx out
            (o, next2, idx2) hinv hsamp
        obtain ⟨hlrest, next3, hinv3⟩ := ih next2 idx2 (out ++ o) rest hinvo hrc
        refine ⟨?_, next3, ?_⟩
        · simp only [List.length_append, List.sum_cons]
          simp only at hlo
          omega
        · rw [← List.append_assoc]
          exact hinv3

lemma runCalls_isSome (pool : List α) (perms : ℕ → List α)
    (hpool : pool ≠ []) (hpermne : ∀ i, perms i ≠ []) :
    ∀ calls next idx, ∃ res, runCalls pool perms calls next idx = some res := by
  intro calls
  induction calls with
  | nil => intro next idx; exact ⟨[], rfl⟩
  | cons c cs ih =>
    intro next idx
    have hmeas : 2 * c + (if next = [] then 1 else 0) < 2 * c + 2 := by
      by_cases hnil : next = [] <;> simp [hnil]
    obtain ⟨r1, hr1⟩ := sampleAux_isSome pool perms hpool hpermne (2 * c + 2) c next idx hmeas
    obtain ⟨o, next2, idx2⟩ := r1
    obtain ⟨rest, hrest⟩ := ih next2 idx2
    refine ⟨o ++ rest, ?_⟩
    rw [runCalls]
    have hs : RandomCycler.sample pool perms c next idx = some (o, next2, idx2) := hr1
    rw [hs]
    simp only [Option.some_bind]
    rw [hrest]
    simp only [Option.map_some']

lemma cycler_bound_arith (n q s c : ℕ) (hn : 0 < n) (hs : s < n) (hc : c ≤ 1)
    (h0 : s = 0 → c = 0) :
    (q * n + s) / n ≤ q + c ∧ q + c ≤ (q * n + s - 1) / n + 1 := by
  have hdiv1 : (q * n + s) / n = q := by
    rw [mul_comm, Nat.mul_add_div hn]
    simp [Nat.div_eq_of_lt hs]
  constructor
  · omega
  · rcases Nat.eq_zero_or_pos s with hs0 | hs1
    · subst hs0
      have hc0 := h0 rfl
      subst hc0
      rcases Nat.eq_zero_or_pos q with hq0 | hq1
      · subst hq0
        simp
      · have hq1n : q * n = n * (q - 1) + n := by
          cases q with
          | zero => omega
          | succ q =>
            have : (q + 1) * n = q * n + n := by ring
            have h2 : n * (q + 1 - 1) = q * n := by
              simp [mul_comm]
            omega
        have heq : q * n + 0 - 1 = n * (q - 1) + (n - 1) := by omega
        rw [heq, Nat.mul_add_div hn, Nat.div_eq_of_lt (by omega)]
        omega
    · have heq : q * n + s - 1 = n * q + (s - 1) := by
        have hcomm : q * n = n * q := mul_comm q n
        omega
      rw [heq, Nat.mul_add_div hn, Nat.div_eq_of_lt (by omega)]
      omega

end CyclerProofs

/-- C5: for every non-empty duplicate-free pool, every resolution of the
random shuffles into permutations of the pool, and every sequence of
RandomCycler.sample calls totaling m draws, each item of the pool occurs in
the concatenated output between floor(m / n) and floor((m - 1) / n) + 1 times
inclusive, where n is the pool size. -/
theorem randomCycler_occurrence_bounds {α : Type} [DecidableEq α]
    (pool : List α) (perms : ℕ → List α) (calls : List ℕ) (out : List α)
    (hnd : pool.Nodup) (hpool : pool ≠ [])
    (hperm : ∀ i, (perms i).Perm pool)
    (hrun : runCalls pool perms calls [] 0 = some out) :
    out.length = calls.sum ∧
    ∀ x ∈ pool,
      calls.sum / pool.length ≤ out.count x ∧
      out.count x ≤ (calls.sum - 1) / pool.length + 1 := by
  have hinit : CyclerInv pool ([] : List α) [] :=
    ⟨0, [], Or.inr ⟨rfl, rfl⟩, by simp, by simp⟩
  obtain ⟨hlen, next2, hinv⟩ :=
    runCalls_spec pool perms hnd hpool hperm calls [] 0 [] out hinit hrun
  rw [List.nil_append] at hinv
  refine ⟨hlen, ?_⟩
  intro x hx
  obtain ⟨q, consumed, hside, hl, hcount⟩ := hinv
  have hn : 0 < pool.length := List.length_pos.mpr hpool
  have hcx := hcount x hx
  rcases hside with ⟨hper, hnn⟩ | ⟨hnil, hcon⟩
  · have hlen2 : consumed.length + next2.length = pool.length := by
      have hpl := hper.length_eq
      rw [List.length_append] at hpl
      exact hpl
    have hslt : consumed.length < pool.length := by
      have : 0 < next2.length := List.length_pos.mpr hnn
      omega
    have hc1 : consumed.count x ≤ 1 := by
      have h1 := perm_count_one pool (consumed ++ next2) hnd hper x hx
      rw [List.count_append] at h1
      omega
    have h0 : consumed.length = 0 → consumed.count x = 0 := by
      intro hz
      rw [List.length_eq_zero.mp hz]
      simp
    have harith := cycler_bound_arith pool.length q consumed.length (consumed.count x)
      hn hslt hc1 h0
    rw [← hlen, hl, hcx]
    exact harith
  · subst hcon
    have harith := cycler_bound_arith pool.length q 0 0 hn hn (by omega) (fun _ => rfl)
    rw [← hlen, hl, hcx]
    simpa using harith

/-- Witness for C5: pool [0, 1], identity shuffles, one call sample(3); the
output is [0, 1, 0] and item 0 occurs twice, within [floor(3/2), floor(2/2)+1]
= [1, 2]. -/
theorem randomCycler_occurrence_bounds_witness :
    [3].sum / ([0, 1] : List ℕ).length ≤ [0, 1, 0].count 0 ∧
    [0, 1, 0].count 0 ≤ ([3].sum - 1) / ([0, 1] : List ℕ).length + 1 :=
  (randomCycler_occurrence_bounds [0, 1] (fun _ => [0, 1]) [3] [0, 1, 0]
    (by decide) (by decide) (fun _ => List.Perm.refl _) (by decide)).2 0 (by decide)

/-- Witness for C10: batch spectrogram lengths [7, 4] with r = 3; the padded
length 9 is a multiple of 3. -/
theorem collate_padded_len_multiple_witness :
    collateMaxSpecLen [7, 4] 3 % 3 = 0 :=
  (collate_padded_len_multiple [7, 4] 3 (by norm_num) (by simp)).1
